import Mathlib

/-!
Verification of the winarg command-line parser (src/winarg/src/lib.rs).

The command-line buffer is modelled as a `List Nat` of 16-bit code units;
the value 0 acts as the terminating NUL exactly as in the source: the
cursor (`WideIter`) reports end-of-input when the current unit is 0 and
never advances past it.  Machine integers that matter are modelled with
explicit wrap-around: the `u16` counters in `EscapeIter::new` and
`WideIter::max_len` increment modulo 2^16 (the release-build semantics of
`counter += 1` on `u16`).
-/

namespace Winarg

/-- `b' ' as u16` (src/winarg/src/lib.rs line 72). -/
def SPACE : Nat := 32
/-- `b'\t' as u16` (line 73). -/
def TAB : Nat := 9
/-- `b'"' as u16` (line 74). -/
def QUOTE : Nat := 34
/-- `b'\\' as u16` (line 75). -/
def SLASH : Nat := 92

/-- `WideIter::peek` (lines 371-378): the current unit, or `none` at the
terminating NUL.  The cursor is the list of units from the current
position onwards. -/
def wpeek : List Nat → Option Nat
  | [] => none
  | u :: _ => if u = 0 then none else some u

/-- `WideIter::skip_whitespace` (lines 397-401): advance while the current
unit is SPACE or TAB. -/
def skip_whitespace : List Nat → List Nat
  | [] => []
  | u :: t => if u = SPACE ∨ u = TAB then skip_whitespace t else u :: t

/-- `EscapeMode` (lines 411-415). -/
inductive EscapeMode where
  | Unescaped
  | LiteralQuote
deriving DecidableEq, Repr

/-- `EscapeIter` (lines 416-420): `counter` is a `u16` in the source. -/
structure EscapeIter where
  counter : Nat
  mode : EscapeMode
deriving DecidableEq, Repr

/-- The loop of `EscapeIter::new` (lines 423-446).  `c` is the current
value of `counter`; the increment wraps modulo 2^16 as the `u16` does.
On a quote: odd counter consumes the quote and records a literal quote,
then the counter halves; even counter halves and leaves the quote.
Anything else (including the terminating NUL) stops without consuming. -/
def escNewGo (c : Nat) : List Nat → EscapeIter × List Nat
  | [] => (⟨c, .Unescaped⟩, [])
  | u :: t =>
    if u = 0 then (⟨c, .Unescaped⟩, u :: t)
    else if u = SLASH then escNewGo ((c + 1) % 65536) t
    else if u = QUOTE then
      if c % 2 = 1 then (⟨c / 2, .LiteralQuote⟩, t)
      else (⟨c / 2, .Unescaped⟩, u :: t)
    else (⟨c, .Unescaped⟩, u :: t)

/-- `EscapeIter::new` (lines 423-446): called after the parser consumed one
backslash, so the counter starts at 1. -/
def escNew (l : List Nat) : EscapeIter × List Nat := escNewGo 1 l

/-- `EscapeIter::next` (lines 448-460): drain pending backslashes first,
then the literal quote if any. -/
def escNext (e : EscapeIter) : Option Nat × EscapeIter :=
  match e.counter with
  | n + 1 => (some SLASH, ⟨n, e.mode⟩)
  | 0 =>
    match e.mode with
    | .LiteralQuote => (some QUOTE, ⟨0, .Unescaped⟩)
    | .Unescaped => (none, ⟨0, .Unescaped⟩)

/-- `ParseArgs` (lines 476-482). -/
structure ParseArgs where
  cursor : List Nat
  quote_mode : Bool
  escape_iter : Option EscapeIter
  is_arg0 : Bool
deriving DecidableEq, Repr

/-- `ParseArgs::new` (lines 489-496). -/
def ParseArgs.make (arg : List Nat) (is_arg0 : Bool) : ParseArgs :=
  ⟨arg, false, none, is_arg0⟩

/-- Number of units the escape iterator has still to emit. -/
def escPending : EscapeIter → Nat
  | ⟨c, .Unescaped⟩ => c
  | ⟨c, .LiteralQuote⟩ => c + 1

/-- Termination measure for the parser loop: the cursor shrinks, and a
pending escape run is bounded by the units consumed to build it. -/
def pMeasure (s : ParseArgs) : Nat :=
  3 * s.cursor.length +
    (match s.escape_iter with | some e => escPending e + 1 | none => 0)

theorem escNewGo_len (c : Nat) (l : List Nat) :
    (escNewGo c l).2.length ≤ l.length := by
  induction l generalizing c with
  | nil => simp [escNewGo]
  | cons u t ih =>
    simp only [escNewGo]
    split
    · simp
    · split
      · exact le_trans (ih _) (by simp)
      · split
        · split <;> simp
        · simp

theorem escNewGo_bound (c : Nat) (l : List Nat) :
    escPending (escNewGo c l).1 + 3 * (escNewGo c l).2.length ≤
      c + 3 * l.length := by
  induction l generalizing c with
  | nil => simp [escNewGo, escPending]
  | cons u t ih =>
    simp only [escNewGo]
    split
    · simp only [escPending, List.length_cons]; omega
    · split
      · have h := ih ((c + 1) % 65536)
        have h2 : (c + 1) % 65536 ≤ c + 1 := Nat.mod_le _ _
        simp only [List.length_cons]
        omega
      · split
        · split
          · simp only [escPending, List.length_cons]
            omega
          · simp only [escPending, List.length_cons]
            omega
        · simp only [escPending, List.length_cons]
          omega

/-- `<ParseArgs as Iterator>::next` (lines 507-538): one step of the parser
state machine, returning the emitted unit (or `none` at an argument
boundary) together with the successor state. -/
def ParseArgs.next (s : ParseArgs) : Option Nat × ParseArgs :=
  match s with
  | ⟨cur, qm, some e, a0⟩ =>
    match escNext e with
    | (some w, e2) => (some w, ⟨cur, qm, some e2, a0⟩)
    | (none, _) => ParseArgs.next ⟨cur, qm, none, a0⟩
  | ⟨[], qm, none, a0⟩ => (none, ⟨[], qm, none, a0⟩)
  | ⟨u :: rest, qm, none, a0⟩ =>
    if u = 0 then (none, ⟨u :: rest, qm, none, a0⟩)
    else if (u = SPACE ∨ u = TAB) ∧ qm = false then
      (none, ⟨u :: rest, qm, none, a0⟩)
    else if u = SLASH ∧ a0 = false then
      ParseArgs.next ⟨(escNew rest).2, qm, some (escNew rest).1, a0⟩
    else if u = QUOTE then
      if a0 = false ∧ qm = true ∧ wpeek rest = some QUOTE then
        (some QUOTE, ⟨rest.tail, qm, none, a0⟩)
      else ParseArgs.next ⟨rest, !qm, none, a0⟩
    else (some u, ⟨rest, qm, none, a0⟩)
termination_by pMeasure s
decreasing_by
  · simp [pMeasure, escPending]
  · have h1 := escNewGo_bound 1 rest
    simp only [pMeasure, escNew, List.length_cons]
    omega
  · simp [pMeasure]

theorem wpeek_nil : wpeek [] = none := rfl

theorem wpeek_cons (u : Nat) (t : List Nat) :
    wpeek (u :: t) = if u = 0 then none else some u := rfl

theorem wpeek_eq_some {l : List Nat} {u : Nat} (h : wpeek l = some u) :
    l = u :: l.tail ∧ u ≠ 0 := by
  cases l with
  | nil => simp [wpeek] at h
  | cons v t =>
    simp only [wpeek] at h
    split at h
    · simp at h
    · simp_all

theorem escNext_some {e e2 : EscapeIter} {w : Nat}
    (h : escNext e = (some w, e2)) :
    escPending e2 < escPending e ∧ (w = SLASH ∨ w = QUOTE) := by
  obtain ⟨c, m⟩ := e
  cases c with
  | zero =>
    cases m with
    | Unescaped => simp [escNext] at h
    | LiteralQuote =>
      simp only [escNext] at h
      obtain ⟨h1, h2⟩ := Prod.mk.injEq .. ▸ h
      cases h2
      simp_all [escPending]
  | succ n =>
    simp only [escNext] at h
    obtain ⟨h1, h2⟩ := Prod.mk.injEq .. ▸ h
    cases h2
    cases m <;> simp_all [escPending]

theorem escNext_none {e e2 : EscapeIter} (h : escNext e = (none, e2)) :
    e.counter = 0 ∧ e.mode = .Unescaped := by
  obtain ⟨c, m⟩ := e
  cases c with
  | zero => cases m <;> simp_all [escNext]
  | succ n => simp [escNext] at h

theorem next_escape_emit (cur : List Nat) (qm a0 : Bool) {e e2 : EscapeIter}
    {w : Nat} (h : escNext e = (some w, e2)) :
    ParseArgs.next ⟨cur, qm, some e, a0⟩ = (some w, ⟨cur, qm, some e2, a0⟩) := by
  rw [ParseArgs.next]
  simp [h]

theorem next_escape_done (cur : List Nat) (qm a0 : Bool) {e e2 : EscapeIter}
    (h : escNext e = (none, e2)) :
    ParseArgs.next ⟨cur, qm, some e, a0⟩ = ParseArgs.next ⟨cur, qm, none, a0⟩ := by
  rw [ParseArgs.next]
  simp [h]

theorem next_end (l : List Nat) (qm a0 : Bool) (h : wpeek l = none) :
    ParseArgs.next ⟨l, qm, none, a0⟩ = (none, ⟨l, qm, none, a0⟩) := by
  cases l with
  | nil => rw [ParseArgs.next]
  | cons u t =>
    simp only [wpeek] at h
    split at h
    · subst ‹u = 0›; rw [ParseArgs.next]; simp
    · simp at h

theorem next_ws {u : Nat} (rest : List Nat) (a0 : Bool)
    (h : u = SPACE ∨ u = TAB) :
    ParseArgs.next ⟨u :: rest, false, none, a0⟩ =
      (none, ⟨u :: rest, false, none, a0⟩) := by
  have h0 : ¬ u = 0 := by rcases h with h | h <;> simp [h, SPACE, TAB]
  rw [ParseArgs.next]
  simp [h0, h]

theorem next_slash (rest : List Nat) (qm : Bool) :
    ParseArgs.next ⟨SLASH :: rest, qm, none, false⟩ =
      ParseArgs.next ⟨(escNew rest).2, qm, some (escNew rest).1, false⟩ := by
  conv_lhs => rw [ParseArgs.next]
  norm_num [SPACE, TAB, SLASH]

theorem next_quote_pair (rest : List Nat) (h : wpeek rest = some QUOTE) :
    ParseArgs.next ⟨QUOTE :: rest, true, none, false⟩ =
      (some QUOTE, ⟨rest.tail, true, none, false⟩) := by
  rw [ParseArgs.next]
  norm_num [SPACE, TAB, SLASH, QUOTE, h]

theorem next_quote_toggle (rest : List Nat) (qm a0 : Bool)
    (h : ¬(a0 = false ∧ qm = true ∧ wpeek rest = some QUOTE)) :
    ParseArgs.next ⟨QUOTE :: rest, qm, none, a0⟩ =
      ParseArgs.next ⟨rest, !qm, none, a0⟩ := by
  rw [ParseArgs.next]
  norm_num [SPACE, TAB, SLASH, QUOTE]
  intro h1 h2 h3
  exact absurd ⟨h1, h2, h3⟩ h

theorem next_other {u : Nat} (rest : List Nat) (qm a0 : Bool)
    (h0 : ¬ u = 0) (h1 : ¬((u = SPACE ∨ u = TAB) ∧ qm = false))
    (h2 : ¬(u = SLASH ∧ a0 = false)) (h3 : ¬ u = QUOTE) :
    ParseArgs.next ⟨u :: rest, qm, none, a0⟩ = (some u, ⟨rest, qm, none, a0⟩) := by
  rw [ParseArgs.next]
  simp [h0, h1, h2, h3]

theorem next_measure_some {s s' : ParseArgs} {w : Nat}
    (h : ParseArgs.next s = (some w, s')) : pMeasure s' < pMeasure s := by
  induction s using ParseArgs.next.induct with
  | case1 cur qm e a0 w2 e2 he =>
    rw [next_escape_emit cur qm a0 he] at h
    obtain ⟨h1, h2⟩ := Prod.mk.injEq .. ▸ h
    cases h2
    have := (escNext_some he).1
    simp only [pMeasure]
    omega
  | case2 cur qm e a0 e2 he ih =>
    rw [next_escape_done cur qm a0 he] at h
    have := ih h
    simp only [pMeasure] at this ⊢
    omega
  | case3 qm a0 => rw [ParseArgs.next] at h; simp at h
  | case4 rest qm a0 => rw [ParseArgs.next] at h; simp at h
  | case5 u rest qm a0 h0 hws =>
    obtain ⟨hu, hqm⟩ := hws
    subst hqm
    rw [next_ws rest a0 hu] at h
    simp at h
  | case6 u rest qm a0 h0 hws hsl ih =>
    obtain ⟨hu, ha⟩ := hsl
    subst hu ha
    rw [next_slash rest qm] at h
    have := ih h
    have hb := escNewGo_bound 1 rest
    simp only [pMeasure, escNew, List.length_cons] at this ⊢
    omega
  | case7 rest qm a0 hp h0 hws hsl =>
    obtain ⟨ha, hq, hpk⟩ := hp
    subst ha hq
    rw [next_quote_pair rest hpk] at h
    obtain ⟨h1, h2⟩ := Prod.mk.injEq .. ▸ h
    cases h2
    obtain ⟨hr, -⟩ := wpeek_eq_some hpk
    simp only [pMeasure]
    have : rest.tail.length + 1 = rest.length := by
      conv_rhs => rw [hr]
      simp
    simp only [List.length_cons]
    omega
  | case8 rest qm a0 hp h0 hws hsl ih =>
    rw [next_quote_toggle rest qm a0 hp] at h
    have := ih h
    simp only [pMeasure, List.length_cons] at this ⊢
    omega
  | case9 u rest qm a0 h0 hws hsl hq =>
    rw [next_other rest qm a0 h0 hws hsl hq] at h
    obtain ⟨h1, h2⟩ := Prod.mk.injEq .. ▸ h
    cases h2
    simp only [pMeasure, List.length_cons]
    omega

theorem next_measure_none {s s' : ParseArgs}
    (h : ParseArgs.next s = (none, s')) : s' = s ∨ pMeasure s' < pMeasure s := by
  induction s using ParseArgs.next.induct with
  | case1 cur qm e a0 w2 e2 he =>
    rw [next_escape_emit cur qm a0 he] at h
    simp at h
  | case2 cur qm e a0 e2 he ih =>
    rw [next_escape_done cur qm a0 he] at h
    rcases ih h with h1 | h1
    · right
      rw [h1]
      simp only [pMeasure]
      omega
    · right
      simp only [pMeasure] at h1 ⊢
      omega
  | case3 qm a0 =>
    rw [ParseArgs.next] at h
    obtain ⟨-, h2⟩ := Prod.mk.injEq .. ▸ h
    exact Or.inl h2.symm
  | case4 rest qm a0 =>
    rw [ParseArgs.next] at h
    simp only [if_pos rfl] at h
    obtain ⟨-, h2⟩ := Prod.mk.injEq .. ▸ h
    exact Or.inl h2.symm
  | case5 u rest qm a0 h0 hws =>
    obtain ⟨hu, hqm⟩ := hws
    subst hqm
    rw [next_ws rest a0 hu] at h
    obtain ⟨-, h2⟩ := Prod.mk.injEq .. ▸ h
    exact Or.inl h2.symm
  | case6 u rest qm a0 h0 hws hsl ih =>
    obtain ⟨hu, ha⟩ := hsl
    subst hu ha
    rw [next_slash rest qm] at h
    rcases ih h with h1 | h1
    · right
      rw [h1]
      have hb := escNewGo_bound 1 rest
      simp only [pMeasure, escNew, List.length_cons]
      omega
    · right
      have hb := escNewGo_bound 1 rest
      simp only [pMeasure, escNew, List.length_cons] at h1 ⊢
      omega
  | case7 rest qm a0 hp h0 hws hsl =>
    obtain ⟨ha, hq, hpk⟩ := hp
    subst ha hq
    rw [next_quote_pair rest hpk] at h
    simp at h
  | case8 rest qm a0 hp h0 hws hsl ih =>
    rw [next_quote_toggle rest qm a0 hp] at h
    rcases ih h with h1 | h1
    · right
      rw [h1]
      simp only [pMeasure, List.length_cons]
      omega
    · right
      simp only [pMeasure, List.length_cons] at h1 ⊢
      omega
  | case9 u rest qm a0 h0 hws hsl hq =>
    rw [next_other rest qm a0 h0 hws hsl hq] at h
    simp at h

/-- A state on which `next` returns `none` is a fixpoint: the same state is
returned again, its escape iterator is drained, and its cursor sits at the
terminating NUL or at unquoted whitespace. -/
theorem next_none_fix {s s' : ParseArgs} (h : ParseArgs.next s = (none, s')) :
    ParseArgs.next s' = (none, s') ∧ s'.escape_iter = none ∧
      (wpeek s'.cursor = none ∨
        ∃ u, wpeek s'.cursor = some u ∧ (u = SPACE ∨ u = TAB) ∧
          s'.quote_mode = false) := by
  induction s using ParseArgs.next.induct with
  | case1 cur qm e a0 w2 e2 he =>
    rw [next_escape_emit cur qm a0 he] at h
    simp at h
  | case2 cur qm e a0 e2 he ih =>
    rw [next_escape_done cur qm a0 he] at h
    exact ih h
  | case3 qm a0 =>
    rw [ParseArgs.next] at h
    obtain ⟨-, h2⟩ := Prod.mk.injEq .. ▸ h
    subst h2
    refine ⟨by rw [ParseArgs.next], rfl, Or.inl rfl⟩
  | case4 rest qm a0 =>
    rw [ParseArgs.next] at h
    simp only [if_pos rfl] at h
    obtain ⟨-, h2⟩ := Prod.mk.injEq .. ▸ h
    subst h2
    refine ⟨by rw [ParseArgs.next]; simp, rfl, Or.inl (by simp [wpeek])⟩
  | case5 u rest qm a0 h0 hws =>
    obtain ⟨hu, hqm⟩ := hws
    subst hqm
    rw [next_ws rest a0 hu] at h
    obtain ⟨-, h2⟩ := Prod.mk.injEq .. ▸ h
    subst h2
    exact ⟨next_ws rest a0 hu, rfl, Or.inr ⟨u, by simp [wpeek, h0], hu, rfl⟩⟩
  | case6 u rest qm a0 h0 hws hsl ih =>
    obtain ⟨hu, ha⟩ := hsl
    subst hu ha
    rw [next_slash rest qm] at h
    exact ih h
  | case7 rest qm a0 hp h0 hws hsl =>
    obtain ⟨ha, hq, hpk⟩ := hp
    subst ha hq
    rw [next_quote_pair rest hpk] at h
    simp at h
  | case8 rest qm a0 hp h0 hws hsl ih =>
    rw [next_quote_toggle rest qm a0 hp] at h
    exact ih h
  | case9 u rest qm a0 h0 hws hsl hq =>
    rw [next_other rest qm a0 h0 hws hsl hq] at h
    simp at h

/-- The `while self.next().is_some() {}` loop of `move_to_next_arg`
(line 500): run the parser to the end of the current argument. -/
def drainArg (s : ParseArgs) : ParseArgs :=
  match h : ParseArgs.next s with
  | (some _, s') => drainArg s'
  | (none, s') => s'
termination_by pMeasure s
decreasing_by exact next_measure_some h

theorem drainArg_some {s s' : ParseArgs} {w : Nat}
    (h : ParseArgs.next s = (some w, s')) : drainArg s = drainArg s' := by
  rw [drainArg]
  split
  · rename_i w2 s2 heq
    rw [h] at heq
    injection heq with h1 h2
    subst h2
    rfl
  · rename_i s2 heq
    rw [h] at heq
    simp at heq

theorem drainArg_none {s s' : ParseArgs}
    (h : ParseArgs.next s = (none, s')) : drainArg s = s' := by
  rw [drainArg]
  split
  · rename_i w2 s2 heq
    rw [h] at heq
    simp at heq
  · rename_i s2 heq
    rw [h] at heq
    injection heq with h1 h2
    subst h2
    rfl

theorem drainArg_fix (s : ParseArgs) :
    ParseArgs.next (drainArg s) = (none, drainArg s) ∧
      (drainArg s).escape_iter = none ∧
      (wpeek (drainArg s).cursor = none ∨
        ∃ u, wpeek (drainArg s).cursor = some u ∧ (u = SPACE ∨ u = TAB) ∧
          (drainArg s).quote_mode = false) := by
  induction s using drainArg.induct with
  | case1 s w s' h ih => rw [drainArg_some h]; exact ih
  | case2 s s' h =>
    rw [drainArg_none h]
    obtain ⟨h1, h2, h3⟩ := next_none_fix h
    exact ⟨h1, h2, h3⟩

theorem drainArg_measure (s : ParseArgs) : pMeasure (drainArg s) ≤ pMeasure s := by
  induction s using drainArg.induct with
  | case1 s w s' h ih =>
    rw [drainArg_some h]
    exact le_trans ih (le_of_lt (next_measure_some h))
  | case2 s s' h =>
    rw [drainArg_none h]
    rcases next_measure_none h with h1 | h1
    · rw [h1]
    · exact le_of_lt h1

/-- `ParseArgs::move_to_next_arg` (lines 499-503): drain the current
argument, skip inter-argument whitespace, clear the zeroth-argument flag. -/
def move_to_next_arg (s : ParseArgs) : ParseArgs :=
  ⟨skip_whitespace (drainArg s).cursor, (drainArg s).quote_mode,
    (drainArg s).escape_iter, false⟩

theorem skip_whitespace_len (l : List Nat) :
    (skip_whitespace l).length ≤ l.length := by
  induction l with
  | nil => simp [skip_whitespace]
  | cons u t ih =>
    simp only [skip_whitespace]
    split
    · exact le_trans ih (by simp)
    · simp

theorem skip_whitespace_ws {u : Nat} (t : List Nat) (h : u = SPACE ∨ u = TAB) :
    skip_whitespace (u :: t) = skip_whitespace t := by
  simp [skip_whitespace, h]

theorem skip_whitespace_of_end {l : List Nat} (h : wpeek l = none) :
    skip_whitespace l = l := by
  cases l with
  | nil => rfl
  | cons u t =>
    simp only [wpeek] at h
    split at h
    · subst ‹u = 0›
      simp [skip_whitespace, SPACE, TAB]
    · simp at h

theorem move_escape (s : ParseArgs) :
    (move_to_next_arg s).escape_iter = none := (drainArg_fix s).2.1

theorem move_arg0 (s : ParseArgs) : (move_to_next_arg s).is_arg0 = false := rfl

theorem move_qm {s : ParseArgs} {u : Nat}
    (h : wpeek (move_to_next_arg s).cursor = some u) :
    (move_to_next_arg s).quote_mode = false := by
  rcases (drainArg_fix s).2.2 with h1 | ⟨v, hv, hws, hqm⟩
  · rw [show (move_to_next_arg s).cursor = skip_whitespace (drainArg s).cursor
        from rfl, skip_whitespace_of_end h1, h1] at h
    simp at h
  · exact hqm

theorem move_measure_le (s : ParseArgs) :
    pMeasure (move_to_next_arg s) ≤ pMeasure s := by
  have h1 := drainArg_measure s
  have h2 := skip_whitespace_len (drainArg s).cursor
  have h3 := (drainArg_fix s).2.1
  simp only [pMeasure, move_to_next_arg, h3] at *
  omega

theorem move_le_drain (s : ParseArgs) :
    pMeasure (move_to_next_arg s) ≤ pMeasure (drainArg s) := by
  have h3 := (drainArg_fix s).2.1
  have h2 := skip_whitespace_len (drainArg s).cursor
  simp only [pMeasure, move_to_next_arg, h3]
  omega

theorem move_measure_lt {s : ParseArgs} {u : Nat} (h : wpeek s.cursor = some u) :
    pMeasure (move_to_next_arg s) < pMeasure s := by
  rcases hn : ParseArgs.next s with ⟨r, s1⟩
  cases r with
  | some w =>
    have hlt := next_measure_some hn
    have hle := move_le_drain s
    rw [drainArg_some hn] at hle
    have hdm := drainArg_measure s1
    omega
  | none =>
    have hd : drainArg s = s1 := drainArg_none hn
    rcases next_measure_none hn with h1 | h1
    · subst h1
      rcases (next_none_fix hn).2.2 with h2 | ⟨v, hv, hws, hqm⟩
      · rw [h2] at h
        simp at h
      · obtain ⟨hcur, hv0⟩ := wpeek_eq_some hv
        have h4 := skip_whitespace_len s1.cursor.tail
        have h5 : skip_whitespace s1.cursor = skip_whitespace s1.cursor.tail := by
          conv_lhs => rw [hcur]
          exact skip_whitespace_ws _ hws
        have h6 : s1.cursor.length = s1.cursor.tail.length + 1 := by
          conv_lhs => rw [hcur]
          simp
        have h3 := (drainArg_fix s1).2.1
        have hesc : s1.escape_iter = none := hd ▸ h3
        simp only [pMeasure, move_to_next_arg, hd, h5, hesc]
        omega
    · have hle := move_le_drain s
      rw [hd] at hle
      omega

/-- `Argument::utf16_units` drives `ParseArgs` to collect every unit of the
current argument (lines 228-230); this collects that iteration. -/
def unitsFrom (s : ParseArgs) : List Nat :=
  match h : ParseArgs.next s with
  | (some w, s') => w :: unitsFrom s'
  | (none, _) => []
termination_by pMeasure s
decreasing_by exact next_measure_some h

theorem unitsFrom_some {s s' : ParseArgs} {w : Nat}
    (h : ParseArgs.next s = (some w, s')) :
    unitsFrom s = w :: unitsFrom s' := by
  rw [unitsFrom]
  split
  · rename_i w2 s2 heq
    rw [h] at heq
    injection heq with h1 h2
    injection h1 with h1
    subst h1 h2
    rfl
  · rename_i s2 heq
    rw [h] at heq
    simp at heq

theorem unitsFrom_none {s s' : ParseArgs}
    (h : ParseArgs.next s = (none, s')) : unitsFrom s = [] := by
  rw [unitsFrom]
  split
  · rename_i w2 s2 heq
    rw [h] at heq
    simp at heq
  · rfl

theorem unitsFrom_congr {s1 s2 : ParseArgs}
    (h : ParseArgs.next s1 = ParseArgs.next s2) : unitsFrom s1 = unitsFrom s2 := by
  rcases hn : ParseArgs.next s2 with ⟨r, s'⟩
  cases r with
  | some w => rw [unitsFrom_some (h.trans hn), unitsFrom_some hn]
  | none => rw [unitsFrom_none (h.trans hn), unitsFrom_none hn]

/-- `Token` (lines 77-84).  The payload of `Unit` is a `NonZeroU16` in the
source; here it is a plain number, and its nonzeroness is proved. -/
inductive Token where
  | Unit : Nat → Token
  | NextArg : Token
deriving DecidableEq, Repr

/-- `Token::as_u16` (lines 86-93). -/
def Token.as_u16 : Token → Nat
  | .Unit u => u
  | .NextArg => 0

/-- `<Parser as Iterator>::next` (lines 119-132): wrap a produced unit as a
token; at an argument boundary advance past it and emit `NextArg` unless
the buffer is exhausted. -/
def parserNext (s : ParseArgs) : Option Token × ParseArgs :=
  match ParseArgs.next s with
  | (some w, s') => (some (.Unit w), s')
  | (none, s') =>
    if wpeek (move_to_next_arg s').cursor = none then (none, move_to_next_arg s')
    else (some .NextArg, move_to_next_arg s')

theorem parserNext_measure {s s' : ParseArgs} {t : Token}
    (h : parserNext s = (some t, s')) : pMeasure s' < pMeasure s := by
  rcases hn : ParseArgs.next s with ⟨r, s1⟩
  cases r with
  | some w =>
    simp only [parserNext, hn] at h
    obtain ⟨-, h2⟩ := Prod.mk.injEq .. ▸ h
    subst h2
    exact next_measure_some hn
  | none =>
    simp only [parserNext, hn] at h
    split at h
    · simp at h
    · obtain ⟨-, h2⟩ := Prod.mk.injEq .. ▸ h
      subst h2
      rename_i hpk
      rcases hp : wpeek s1.cursor with - | u
      · exfalso
        have hfix := (next_none_fix hn).1
        have hd : drainArg s1 = s1 := drainArg_none hfix
        have : (move_to_next_arg s1).cursor = s1.cursor := by
          show skip_whitespace (drainArg s1).cursor = s1.cursor
          rw [hd]
          exact skip_whitespace_of_end hp
        rw [this, hp] at hpk
        exact hpk rfl
      · have hlt := move_measure_lt hp
        rcases next_measure_none hn with h1 | h1
        · calc pMeasure (move_to_next_arg s1) < pMeasure s1 := hlt
            _ = pMeasure s := by rw [h1]
        · omega

/-- Collecting the token iterator `Parser` (lines 117-132). -/
def tokensFrom (s : ParseArgs) : List Token :=
  match h : parserNext s with
  | (some t, s') => t :: tokensFrom s'
  | (none, _) => []
termination_by pMeasure s
decreasing_by exact parserNext_measure h

theorem tokensFrom_some {s s' : ParseArgs} {t : Token}
    (h : parserNext s = (some t, s')) : tokensFrom s = t :: tokensFrom s' := by
  rw [tokensFrom]
  split
  · rename_i t2 s2 heq
    rw [h] at heq
    injection heq with h1 h2
    injection h1 with h1
    subst h1 h2
    rfl
  · rename_i s2 heq
    rw [h] at heq
    simp at heq

theorem tokensFrom_none {s s' : ParseArgs}
    (h : parserNext s = (none, s')) : tokensFrom s = [] := by
  rw [tokensFrom]
  split
  · rename_i t2 s2 heq
    rw [h] at heq
    simp at heq
  · rfl

/-- `null_separated_list_wide` (lines 164-166): the token stream mapped
through `Token::as_u16`. -/
def tokenUnits (s : ParseArgs) : List Nat := (tokensFrom s).map Token.as_u16

/-- `Argument` (lines 180-184): a snapshot of cursor and zeroth-flag. -/
structure Argument where
  arg : List Nat
  is_arg0 : Bool
deriving DecidableEq, Repr

/-- `Argument::utf16_units` (lines 228-230): parse from the snapshot with a
fresh `ParseArgs::new` state. -/
def Argument.utf16_units (a : Argument) : List Nat :=
  unitsFrom (ParseArgs.make a.arg a.is_arg0)

/-- `<ArgsNative as Iterator>::next` (lines 324-335). -/
def argsNext (s : ParseArgs) : Option Argument × ParseArgs :=
  if wpeek s.cursor = none then (none, s)
  else (some ⟨s.cursor, s.is_arg0⟩, move_to_next_arg s)

/-- Collecting the argument iterator `ArgsNative` (lines 322-336). -/
def argsFrom (s : ParseArgs) : List Argument :=
  match h : argsNext s with
  | (some a, s') => a :: argsFrom s'
  | (none, _) => []
termination_by pMeasure s
decreasing_by
  simp only [argsNext] at h
  split at h
  · simp at h
  · obtain ⟨-, h2⟩ := Prod.mk.injEq .. ▸ h
    subst h2
    rename_i hp
    obtain ⟨u, hu⟩ := Option.ne_none_iff_exists'.mp hp
    exact move_measure_lt hu

theorem argsFrom_cons {s : ParseArgs} {u : Nat} (h : wpeek s.cursor = some u) :
    argsFrom s = ⟨s.cursor, s.is_arg0⟩ :: argsFrom (move_to_next_arg s) := by
  have ha : argsNext s = (some ⟨s.cursor, s.is_arg0⟩, move_to_next_arg s) := by
    simp [argsNext, h]
  rw [argsFrom]
  split
  · rename_i a2 s2 heq
    rw [ha] at heq
    injection heq with h1 h2
    injection h1 with h1
    subst h1 h2
    rfl
  · rename_i s2 heq
    rw [ha] at heq
    simp at heq

theorem argsFrom_nil {s : ParseArgs} (h : wpeek s.cursor = none) :
    argsFrom s = [] := by
  have ha : argsNext s = (none, s) := by simp [argsNext, h]
  rw [argsFrom]
  split
  · rename_i a2 s2 heq
    rw [ha] at heq
    simp at heq
  · rfl

theorem escNewGo_slash (c : Nat) (t : List Nat) :
    escNewGo c (SLASH :: t) = escNewGo ((c + 1) % 65536) t := by
  simp [escNewGo, SLASH]

theorem escNewGo_replicate (c m : Nat) (l : List Nat) (hc : c < 65536) :
    escNewGo c (List.replicate m SLASH ++ l) =
      escNewGo ((c + m) % 65536) l := by
  induction m generalizing c with
  | zero => simp [Nat.mod_eq_of_lt hc]
  | succ m ih =>
    rw [List.replicate_succ, List.cons_append, escNewGo_slash,
      ih ((c + 1) % 65536) (Nat.mod_lt _ (by omega))]
    congr 1
    omega

theorem escNewGo_quote (c : Nat) (t : List Nat) :
    escNewGo c (QUOTE :: t) =
      if c % 2 = 1 then (⟨c / 2, .LiteralQuote⟩, t)
      else (⟨c / 2, .Unescaped⟩, QUOTE :: t) := by
  simp [escNewGo, QUOTE, SLASH]

theorem escNewGo_stop (c : Nat) (l : List Nat)
    (h1 : wpeek l ≠ some SLASH) (h2 : wpeek l ≠ some QUOTE) :
    escNewGo c l = (⟨c, .Unescaped⟩, l) := by
  cases l with
  | nil => rfl
  | cons u t =>
    by_cases h0 : u = 0
    · subst h0
      simp [escNewGo]
    · simp only [wpeek, if_neg h0] at h1 h2
      have hs : u ≠ SLASH := fun h => h1 (by rw [h])
      have hq : u ≠ QUOTE := fun h => h2 (by rw [h])
      simp [escNewGo, h0, hs, hq]

/-- Draining a pending escape run: the parser emits the queued backslashes,
then the literal quote if any, before reading the cursor again. -/
theorem unitsFrom_drain (cnt : Nat) (md : EscapeMode) (cur : List Nat)
    (qm a0 : Bool) :
    unitsFrom ⟨cur, qm, some ⟨cnt, md⟩, a0⟩ =
      List.replicate cnt SLASH ++
        (match md with | .LiteralQuote => [QUOTE] | .Unescaped => []) ++
        unitsFrom ⟨cur, qm, none, a0⟩ := by
  induction cnt with
  | zero =>
    cases md with
    | Unescaped =>
      have h : escNext ⟨0, .Unescaped⟩ = (none, ⟨0, .Unescaped⟩) := rfl
      rw [unitsFrom_congr (next_escape_done cur qm a0 h)]
      simp
    | LiteralQuote =>
      have h : escNext ⟨0, .LiteralQuote⟩ = (some QUOTE, ⟨0, .Unescaped⟩) := rfl
      rw [unitsFrom_some (next_escape_emit cur qm a0 h)]
      have h2 : escNext ⟨0, .Unescaped⟩ = (none, ⟨0, .Unescaped⟩) := rfl
      rw [unitsFrom_congr (next_escape_done cur qm a0 h2)]
      simp
  | succ n ih =>
    have h : escNext ⟨n + 1, md⟩ = (some SLASH, ⟨n, md⟩) := rfl
    rw [unitsFrom_some (next_escape_emit cur qm a0 h), ih,
      List.replicate_succ]
    simp

/-- The full backslash-run cluster, as the parser executes it: consume the
first backslash, build the escape run from the remainder, drain it. -/
theorem unitsFrom_cluster (n : Nat) (r0 : List Nat) (qm : Bool) (hn : 1 ≤ n) :
    unitsFrom ⟨List.replicate n SLASH ++ r0, qm, none, false⟩ =
      List.replicate (escNew (List.replicate (n - 1) SLASH ++ r0)).1.counter
          SLASH ++
        (match (escNew (List.replicate (n - 1) SLASH ++ r0)).1.mode with
          | .LiteralQuote => [QUOTE] | .Unescaped => []) ++
        unitsFrom ⟨(escNew (List.replicate (n - 1) SLASH ++ r0)).2, qm, none,
          false⟩ := by
  obtain ⟨m, rfl⟩ : ∃ m, n = m + 1 := ⟨n - 1, by omega⟩
  rw [List.replicate_succ, List.cons_append,
    unitsFrom_congr (next_slash (List.replicate m SLASH ++ r0) qm)]
  rcases he : escNew (List.replicate m SLASH ++ r0) with ⟨⟨cnt, md⟩, rest'⟩
  rw [unitsFrom_drain]
  simp [he]

theorem unitsFrom_slashes_quote (k : Nat) (rest : List Nat) (qm : Bool)
    (hk : 1 ≤ k) :
    unitsFrom ⟨List.replicate k SLASH ++ QUOTE :: rest, qm, none, false⟩ =
      List.replicate (k % 65536 / 2) SLASH ++
        (if k % 65536 % 2 = 1 then QUOTE :: unitsFrom ⟨rest, qm, none, false⟩
         else unitsFrom ⟨QUOTE :: rest, qm, none, false⟩) := by
  have he : escNew (List.replicate (k - 1) SLASH ++ QUOTE :: rest) =
      escNewGo (k % 65536) (QUOTE :: rest) := by
    rw [escNew, escNewGo_replicate 1 (k - 1) _ (by omega)]
    congr 1
    omega
  rw [unitsFrom_cluster k (QUOTE :: rest) qm hk, he, escNewGo_quote]
  by_cases hodd : k % 65536 % 2 = 1
  · simp [hodd]
  · simp [hodd]

theorem unitsFrom_slashes_stop (k : Nat) (r0 : List Nat) (qm : Bool)
    (hk : 1 ≤ k) (hk2 : k < 65536)
    (h1 : wpeek r0 ≠ some SLASH) (h2 : wpeek r0 ≠ some QUOTE) :
    unitsFrom ⟨List.replicate k SLASH ++ r0, qm, none, false⟩ =
      List.replicate k SLASH ++ unitsFrom ⟨r0, qm, none, false⟩ := by
  have he : escNew (List.replicate (k - 1) SLASH ++ r0) =
      (⟨k, .Unescaped⟩, r0) := by
    rw [escNew, escNewGo_replicate 1 (k - 1) _ (by omega),
      show (1 + (k - 1)) % 65536 = k by omega, escNewGo_stop k r0 h1 h2]
  rw [unitsFrom_cluster k r0 qm hk, he]
  simp

theorem unitsFrom_end {l : List Nat} (qm a0 : Bool) (h : wpeek l = none) :
    unitsFrom ⟨l, qm, none, a0⟩ = [] := unitsFrom_none (next_end l qm a0 h)

theorem unitsFrom_nil (qm a0 : Bool) : unitsFrom ⟨[], qm, none, a0⟩ = [] :=
  unitsFrom_end qm a0 rfl

theorem unitsFrom_other {u : Nat} (rest : List Nat) (qm a0 : Bool)
    (h0 : ¬ u = 0) (h1 : ¬((u = SPACE ∨ u = TAB) ∧ qm = false))
    (h2 : ¬(u = SLASH ∧ a0 = false)) (h3 : ¬ u = QUOTE) :
    unitsFrom ⟨u :: rest, qm, none, a0⟩ = u :: unitsFrom ⟨rest, qm, none, a0⟩ :=
  unitsFrom_some (next_other rest qm a0 h0 h1 h2 h3)

theorem unitsFrom_quote_toggle (rest : List Nat) (qm a0 : Bool)
    (h : ¬(a0 = false ∧ qm = true ∧ wpeek rest = some QUOTE)) :
    unitsFrom ⟨QUOTE :: rest, qm, none, a0⟩ =
      unitsFrom ⟨rest, !qm, none, a0⟩ :=
  unitsFrom_congr (next_quote_toggle rest qm a0 h)

theorem unitsFrom_quote_pair (rest : List Nat) (h : wpeek rest = some QUOTE) :
    unitsFrom ⟨QUOTE :: rest, true, none, false⟩ =
      QUOTE :: unitsFrom ⟨rest.tail, true, none, false⟩ :=
  unitsFrom_some (next_quote_pair rest h)

theorem unitsFrom_ws {u : Nat} (rest : List Nat) (a0 : Bool)
    (h : u = SPACE ∨ u = TAB) :
    unitsFrom ⟨u :: rest, false, none, a0⟩ = [] :=
  unitsFrom_none (next_ws rest a0 h)

/-- C1 (amended): outside the zeroth argument, a run of `n` backslashes
(`1 ≤ n < 2^16`) followed by a quote emits `n/2` backslashes first; if `n`
is odd the quote is consumed and emitted literally, quote mode unchanged;
if `n` is even the quote is left in the cursor for the general quote rule.
That rule toggles the mode whenever the doubled-quote case does not apply
(outside quote mode, or no second quote follows).  A run of backslashes not
followed by a quote is emitted verbatim. -/
theorem claim_C1 :
    (∀ (n : Nat) (qm : Bool) (rest : List Nat), 1 ≤ n → n < 65536 →
      unitsFrom ⟨List.replicate n SLASH ++ QUOTE :: rest, qm, none, false⟩ =
        List.replicate (n / 2) SLASH ++
          (if n % 2 = 1 then QUOTE :: unitsFrom ⟨rest, qm, none, false⟩
           else unitsFrom ⟨QUOTE :: rest, qm, none, false⟩)) ∧
    (∀ (qm : Bool) (rest : List Nat), qm = false ∨ wpeek rest ≠ some QUOTE →
      unitsFrom ⟨QUOTE :: rest, qm, none, false⟩ =
        unitsFrom ⟨rest, !qm, none, false⟩) ∧
    (∀ (n : Nat) (qm : Bool) (r0 : List Nat), 1 ≤ n → n < 65536 →
      wpeek r0 ≠ some SLASH → wpeek r0 ≠ some QUOTE →
      unitsFrom ⟨List.replicate n SLASH ++ r0, qm, none, false⟩ =
        List.replicate n SLASH ++ unitsFrom ⟨r0, qm, none, false⟩) := by
  refine ⟨?_, ?_, ?_⟩
  · intro n qm rest hn hn2
    rw [unitsFrom_slashes_quote n rest qm hn, Nat.mod_eq_of_lt hn2]
  · intro qm rest h
    refine unitsFrom_quote_toggle rest qm false ?_
    rintro ⟨-, hqm, hpk⟩
    rcases h with h | h
    · rw [h] at hqm
      exact Bool.false_ne_true hqm
    · exact h hpk
  · intro n qm r0 hn hn2 h1 h2
    exact unitsFrom_slashes_stop n r0 qm hn hn2 h1 h2

theorem claim_C1_witness :
    1 ≤ 1 ∧ 1 < 65536 ∧
      unitsFrom ⟨List.replicate 1 SLASH ++ QUOTE :: [97], false, none, false⟩ =
        List.replicate (1 / 2) SLASH ++
          (if 1 % 2 = 1 then QUOTE :: unitsFrom ⟨[97], false, none, false⟩
           else unitsFrom ⟨QUOTE :: [97], false, none, false⟩) :=
  ⟨le_refl 1, by omega, claim_C1.1 1 false [97] (le_refl 1) (by omega)⟩

/-- C1 (counterexample to the claim as stated): with a run of 2^16
backslashes the u16 counter wraps, so n/2 backslashes are not emitted; and
after an even run inside quote mode a following doubled quote emits a
literal quote instead of toggling. -/
theorem claim_C1_cex :
    (unitsFrom ⟨List.replicate 65536 SLASH ++ QUOTE :: ([] : List Nat),
        false, none, false⟩ ≠
      List.replicate (65536 / 2) SLASH ++
        unitsFrom ⟨([] : List Nat), true, none, false⟩) ∧
    (unitsFrom ⟨[SLASH, SLASH, QUOTE, QUOTE, 97], true, none, false⟩ ≠
      List.replicate (2 / 2) SLASH ++
        unitsFrom ⟨[QUOTE, 97], false, none, false⟩) := by
  constructor
  · rw [unitsFrom_slashes_quote 65536 [] false (by omega),
      show (65536 : Nat) % 65536 = 0 by norm_num,
      if_neg (by norm_num : ¬ (0 : Nat) % 2 = 1)]
    simp only [Nat.zero_div, List.replicate_zero, List.nil_append]
    rw [unitsFrom_quote_toggle [] false false (by simp), unitsFrom_nil,
      unitsFrom_nil]
    intro h
    have hl := congrArg List.length h
    rw [List.length_append, List.length_replicate, List.length_nil] at hl
    omega
  · have hL : unitsFrom ⟨[SLASH, SLASH, QUOTE, QUOTE, 97], true, none, false⟩ =
        [SLASH, QUOTE, 97] := by
      rw [show ([SLASH, SLASH, QUOTE, QUOTE, 97] : List Nat) =
          List.replicate 2 SLASH ++ QUOTE :: [QUOTE, 97] from rfl,
        unitsFrom_slashes_quote 2 [QUOTE, 97] true (by omega),
        show (2 : Nat) % 65536 = 2 from by norm_num,
        if_neg (by norm_num : ¬ (2 : Nat) % 2 = 1),
        unitsFrom_quote_pair [QUOTE, 97] (by simp [wpeek, QUOTE]),
        show ([QUOTE, 97] : List Nat).tail = [97] from rfl,
        unitsFrom_other [] true false (by norm_num) (by simp)
          (by norm_num [SLASH]) (by norm_num [QUOTE]), unitsFrom_nil]
      decide
    have hR : unitsFrom ⟨[QUOTE, 97], false, none, false⟩ = [97] := by
      rw [show ([QUOTE, 97] : List Nat) = QUOTE :: [97] from rfl,
        unitsFrom_quote_toggle [97] false false (by simp)]
      simp only [Bool.not_false]
      rw [unitsFrom_other [] true false (by norm_num) (by simp)
        (by norm_num [SLASH]) (by norm_num [QUOTE]), unitsFrom_nil]
    rw [hL, hR]
    decide

/-- C2: inside quote mode, outside the zeroth argument, a quote followed by
another quote consumes both, emits one literal quote, and quote mode stays
on. -/
theorem claim_C2 (rest : List Nat) :
    ParseArgs.next ⟨QUOTE :: QUOTE :: rest, true, none, false⟩ =
      (some QUOTE, ⟨rest, true, none, false⟩) := by
  have h := next_quote_pair (QUOTE :: rest) (by simp [wpeek, QUOTE])
  simpa using h

/-- C3: while the zeroth-argument flag is set, a backslash is an ordinary
literal unit (no escape run is created), a quote is consumed and only
toggles quote mode (the doubled-quote rule is disabled), and
`move_to_next_arg` clears the flag. -/
theorem claim_C3 :
    (∀ (rest : List Nat) (qm : Bool),
      ParseArgs.next ⟨SLASH :: rest, qm, none, true⟩ =
        (some SLASH, ⟨rest, qm, none, true⟩)) ∧
    (∀ (rest : List Nat) (qm : Bool),
      ParseArgs.next ⟨QUOTE :: rest, qm, none, true⟩ =
        ParseArgs.next ⟨rest, !qm, none, true⟩) ∧
    (∀ s : ParseArgs, (move_to_next_arg s).is_arg0 = false) := by
  refine ⟨?_, ?_, fun s => rfl⟩
  · intro rest qm
    refine next_other rest qm true (by norm_num [SLASH])
      (by norm_num [SLASH, SPACE, TAB]) (by simp) (by norm_num [SLASH, QUOTE])
  · intro rest qm
    exact next_quote_toggle rest qm true (by simp)

/-- C10: the escape-run counter is a u16; for a run of `k ≥ 2^16`
backslashes followed by a quote it wraps modulo 2^16, so the cluster emits
`(k mod 2^16)/2` backslashes, which is never `⌊k/2⌋`. -/
theorem claim_C10 (k : Nat) (qm : Bool) (rest : List Nat) (hk : 65536 ≤ k) :
    (unitsFrom ⟨List.replicate k SLASH ++ QUOTE :: rest, qm, none, false⟩ =
      List.replicate (k % 65536 / 2) SLASH ++
        (if k % 65536 % 2 = 1 then QUOTE :: unitsFrom ⟨rest, qm, none, false⟩
         else unitsFrom ⟨QUOTE :: rest, qm, none, false⟩)) ∧
    k % 65536 / 2 ≠ k / 2 := by
  refine ⟨unitsFrom_slashes_quote k rest qm (by omega), ?_⟩
  have h1 : k % 65536 < 65536 := Nat.mod_lt _ (by omega)
  omega

theorem claim_C10_witness :
    65536 ≤ 65536 ∧
      ((unitsFrom ⟨List.replicate 65536 SLASH ++ QUOTE :: ([] : List Nat),
          false, none, false⟩ =
        List.replicate (65536 % 65536 / 2) SLASH ++
          (if 65536 % 65536 % 2 = 1 then
            QUOTE :: unitsFrom ⟨([] : List Nat), false, none, false⟩
           else unitsFrom ⟨QUOTE :: ([] : List Nat), false, none, false⟩)) ∧
      65536 % 65536 / 2 ≠ 65536 / 2) :=
  ⟨le_refl 65536, claim_C10 65536 false [] (le_refl 65536)⟩

/-- Every unit the parser step emits is nonzero: escape runs emit only
backslashes and quotes, and the cursor never hands out the terminator. -/
theorem next_ne_zero {s s' : ParseArgs} {w : Nat}
    (h : ParseArgs.next s = (some w, s')) : w ≠ 0 := by
  induction s using ParseArgs.next.induct with
  | case1 cur qm e a0 w2 e2 he =>
    rw [next_escape_emit cur qm a0 he] at h
    obtain ⟨h1, -⟩ := Prod.mk.injEq .. ▸ h
    injection h1 with h1
    subst h1
    rcases (escNext_some he).2 with h2 | h2 <;> subst h2 <;> norm_num [SLASH, QUOTE]
  | case2 cur qm e a0 e2 he ih =>
    rw [next_escape_done cur qm a0 he] at h
    exact ih h
  | case3 qm a0 => rw [ParseArgs.next] at h; simp at h
  | case4 rest qm a0 => rw [ParseArgs.next] at h; simp at h
  | case5 u rest qm a0 h0 hws =>
    obtain ⟨hu, hqm⟩ := hws
    subst hqm
    rw [next_ws rest a0 hu] at h
    simp at h
  | case6 u rest qm a0 h0 hws hsl ih =>
    obtain ⟨hu, ha⟩ := hsl
    subst hu ha
    rw [next_slash rest qm] at h
    exact ih h
  | case7 rest qm a0 hp h0 hws hsl =>
    obtain ⟨ha, hq, hpk⟩ := hp
    subst ha hq
    rw [next_quote_pair rest hpk] at h
    obtain ⟨h1, -⟩ := Prod.mk.injEq .. ▸ h
    injection h1 with h1
    subst h1
    norm_num [QUOTE]
  | case8 rest qm a0 hp h0 hws hsl ih =>
    rw [next_quote_toggle rest qm a0 hp] at h
    exact ih h
  | case9 u rest qm a0 h0 hws hsl hq =>
    rw [next_other rest qm a0 h0 hws hsl hq] at h
    obtain ⟨h1, -⟩ := Prod.mk.injEq .. ▸ h
    injection h1 with h1
    subst h1
    exact h0

theorem unitsFrom_ne_zero (s : ParseArgs) :
    ∀ w ∈ unitsFrom s, w ≠ 0 := by
  induction s using unitsFrom.induct with
  | case1 s w s' h ih =>
    rw [unitsFrom_some h]
    intro v hv
    rcases List.mem_cons.mp hv with hv | hv
    · subst hv
      exact next_ne_zero h
    · exact ih v hv
  | case2 s s' h =>
    rw [unitsFrom_none h]
    intro v hv
    simp at hv

/-- Validity of a token: the unit variant carries a nonzero payload. -/
def Token.valid : Token → Prop
  | .Unit u => u ≠ 0
  | .NextArg => True

theorem tokensFrom_valid (s : ParseArgs) :
    ∀ t ∈ tokensFrom s, Token.valid t := by
  induction s using tokensFrom.induct with
  | case1 s t s' h ih =>
    rw [tokensFrom_some h]
    intro t2 ht2
    rcases List.mem_cons.mp ht2 with ht2 | ht2
    · subst ht2
      rcases hn : ParseArgs.next s with ⟨r, s1⟩
      cases r with
      | some w =>
        simp only [parserNext, hn] at h
        obtain ⟨h1, -⟩ := Prod.mk.injEq .. ▸ h
        injection h1 with h1
        subst h1
        exact next_ne_zero hn
      | none =>
        simp only [parserNext, hn] at h
        split at h
        · simp at h
        · obtain ⟨h1, -⟩ := Prod.mk.injEq .. ▸ h
          injection h1 with h1
          subst h1
          trivial
    · exact ih t2 ht2
  | case2 s s' h =>
    rw [tokensFrom_none h]
    intro t2 ht2
    simp at ht2

/-- C8: the parser never yields the unit 0, every token in the stream is
valid (unit payloads nonzero — so the unchecked NonZeroU16 construction in
`Parser::next` is sound on every step), and `as_u16` is injective on valid
tokens. -/
theorem claim_C8 :
    (∀ (s s' : ParseArgs) (w : Nat),
      ParseArgs.next s = (some w, s') → w ≠ 0) ∧
    (∀ (s : ParseArgs) (t : Token), t ∈ tokensFrom s → Token.valid t) ∧
    (∀ t1 t2 : Token, Token.valid t1 → Token.valid t2 →
      t1.as_u16 = t2.as_u16 → t1 = t2) := by
  refine ⟨fun s s' w h => next_ne_zero h, fun s t ht => tokensFrom_valid s t ht, ?_⟩
  intro t1 t2 h1 h2 heq
  cases t1 with
  | Unit u1 =>
    cases t2 with
    | Unit u2 =>
      simp only [Token.as_u16] at heq
      rw [heq]
    | NextArg =>
      simp only [Token.as_u16] at heq
      exact absurd heq h1
  | NextArg =>
    cases t2 with
    | Unit u2 =>
      simp only [Token.as_u16] at heq
      exact absurd heq.symm h2
    | NextArg => rfl

theorem claim_C8_witness :
    ParseArgs.next ⟨[97], false, none, true⟩ =
      (some 97, ⟨[], false, none, true⟩) ∧ (97 : Nat) ≠ 0 := by
  have hstep : ParseArgs.next ⟨[97], false, none, true⟩ =
      (some 97, ⟨[], false, none, true⟩) :=
    next_other [] false true (by norm_num) (by norm_num [SPACE, TAB])
      (by simp) (by norm_num [QUOTE])
  exact ⟨hstep, claim_C8.1 _ _ 97 hstep⟩

theorem move_congr_some {s s' : ParseArgs} {w : Nat}
    (h : ParseArgs.next s = (some w, s')) :
    move_to_next_arg s = move_to_next_arg s' := by
  simp only [move_to_next_arg, drainArg_some h]

theorem move_of_none {s s' : ParseArgs}
    (h : ParseArgs.next s = (none, s')) :
    move_to_next_arg s = move_to_next_arg s' := by
  have h2 : drainArg s = s' := drainArg_none h
  have h3 : drainArg s' = s' := drainArg_none (next_none_fix h).1
  simp only [move_to_next_arg, h2, h3]

/-- One argument layer of the token stream: the units of the current
argument, then (if the buffer is not exhausted after advancing) a
`NextArg` marker and the stream of the remaining arguments. -/
theorem tokensFrom_structure (s : ParseArgs) :
    tokensFrom s = (unitsFrom s).map Token.Unit ++
      (if wpeek (move_to_next_arg s).cursor = none then []
       else Token.NextArg :: tokensFrom (move_to_next_arg s)) := by
  generalize hn : pMeasure s = n
  induction n using Nat.strong_induction_on generalizing s with
  | _ n ih =>
    subst hn
    rcases hstep : ParseArgs.next s with ⟨r, s1⟩
    cases r with
    | some w =>
      have hp : parserNext s = (some (.Unit w), s1) := by
        simp [parserNext, hstep]
      rw [tokensFrom_some hp, unitsFrom_some hstep, move_congr_some hstep,
        ih (pMeasure s1) (next_measure_some hstep) s1 rfl]
      simp
    | none =>
      rw [unitsFrom_none hstep, List.map_nil, List.nil_append]
      have hmv : move_to_next_arg s = move_to_next_arg s1 := move_of_none hstep
      by_cases hpk : wpeek (move_to_next_arg s1).cursor = none
      · have hp : parserNext s = (none, move_to_next_arg s1) := by
          simp [parserNext, hstep, hpk]
        rw [tokensFrom_none hp, hmv, if_pos hpk]
      · have hp : parserNext s = (some .NextArg, move_to_next_arg s1) := by
          simp [parserNext, hstep, hpk]
        rw [tokensFrom_some hp, hmv, if_neg hpk]

/-- Modelled from the spec side of C5: splitting a flat unit stream on the
separator 0 (the convention of `split` on a separator: the empty stream has
one empty part, a trailing separator yields a trailing empty part). -/
def splitOnZero : List Nat → List (List Nat)
  | [] => [[]]
  | u :: t =>
    if u = 0 then [] :: splitOnZero t
    else
      match splitOnZero t with
      | [] => [[u]]
      | h :: r => (u :: h) :: r

theorem splitOnZero_no_zero {l : List Nat} (h : ∀ u ∈ l, u ≠ 0) :
    splitOnZero l = [l] := by
  induction l with
  | nil => rfl
  | cons u t ih =>
    have hu : u ≠ 0 := h u (List.mem_cons_self ..)
    have ht : ∀ v ∈ t, v ≠ 0 := fun v hv => h v (List.mem_cons_of_mem _ hv)
    simp only [splitOnZero, if_neg hu, ih ht]

theorem splitOnZero_sep {a : List Nat} (t : List Nat) (h : ∀ u ∈ a, u ≠ 0) :
    splitOnZero (a ++ 0 :: t) = a :: splitOnZero t := by
  induction a with
  | nil => simp [splitOnZero]
  | cons u r ih =>
    have hu : u ≠ 0 := h u (List.mem_cons_self ..)
    have hr : ∀ v ∈ r, v ≠ 0 := fun v hv => h v (List.mem_cons_of_mem _ hv)
    rw [List.cons_append, splitOnZero, if_neg hu, ih hr]

theorem map_unit_as_u16 (l : List Nat) :
    (l.map Token.Unit).map Token.as_u16 = l := by
  induction l with
  | nil => rfl
  | cons u t ih => simp only [List.map_cons, Token.as_u16, ih]

theorem splitOnZero_tokenUnits :
    ∀ (n : Nat) (s : ParseArgs), pMeasure s ≤ n →
    s.escape_iter = none → s.quote_mode = false →
    (∃ u, wpeek s.cursor = some u) →
    splitOnZero (tokenUnits s) = (argsFrom s).map Argument.utf16_units := by
  intro n
  induction n with
  | zero =>
    rintro s hle hesc hqm ⟨u, hpk⟩
    have hlen : s.cursor.length = 0 := by
      simp only [pMeasure] at hle
      omega
    rw [List.length_eq_zero.mp hlen] at hpk
    simp [wpeek] at hpk
  | succ n ihn =>
    rintro s hle hesc hqm ⟨u, hpk⟩
    obtain ⟨cur, qm, esc, a0⟩ := s
    dsimp only at hesc hqm hpk
    subst hesc hqm
    rw [argsFrom_cons hpk, tokenUnits, tokensFrom_structure, List.map_append,
      map_unit_as_u16, List.map_cons]
    by_cases hpk2 :
      wpeek (move_to_next_arg ⟨cur, false, none, a0⟩).cursor = none
    · rw [if_pos hpk2, argsFrom_nil hpk2]
      simp only [List.map_nil, List.append_nil]
      rw [splitOnZero_no_zero (unitsFrom_ne_zero _)]
      rfl
    · rw [if_neg hpk2, List.map_cons,
        show Token.as_u16 Token.NextArg = 0 from rfl,
        splitOnZero_sep _ (unitsFrom_ne_zero _)]
      obtain ⟨u2, hu2⟩ := Option.ne_none_iff_exists'.mp hpk2
      have hpk' : wpeek (ParseArgs.mk cur false none a0).cursor = some u := hpk
      have hmeas := move_measure_lt hpk'
      have hrec := ihn (move_to_next_arg ⟨cur, false, none, a0⟩)
        (by simp only [pMeasure] at hle hmeas ⊢; omega)
        (move_escape _) (move_qm hu2) ⟨u2, hu2⟩
      rw [tokenUnits] at hrec
      rw [hrec]
      rfl

/-- C5 (amended): whenever the cursor initially sees a nonzero unit,
splitting the flat null-separated stream on 0 yields exactly the argument
bodies produced by the argument iterator.  (The empty input is the one
exception: the split of the empty stream is one empty part, while the
argument iterator yields nothing.) -/
theorem claim_C5 (buf : List Nat) (h : wpeek buf ≠ none) :
    splitOnZero (tokenUnits ⟨buf, false, none, true⟩) =
      (argsFrom ⟨buf, false, none, true⟩).map Argument.utf16_units := by
  obtain ⟨u, hu⟩ := Option.ne_none_iff_exists'.mp h
  exact splitOnZero_tokenUnits (pMeasure ⟨buf, false, none, true⟩) _ le_rfl
    rfl rfl ⟨u, hu⟩

theorem claim_C5_witness :
    wpeek [97] ≠ none ∧
      splitOnZero (tokenUnits ⟨[97], false, none, true⟩) =
        (argsFrom ⟨[97], false, none, true⟩).map Argument.utf16_units :=
  ⟨by simp [wpeek], claim_C5 [97] (by simp [wpeek])⟩

/-- C5 (counterexample to the claim as stated, at the empty input): the
split of the empty flat stream has one empty part, but the argument
iterator yields no argument. -/
theorem claim_C5_cex :
    splitOnZero (tokenUnits ⟨[], false, none, true⟩) ≠
      (argsFrom ⟨[], false, none, true⟩).map Argument.utf16_units := by
  have hstep : ParseArgs.next ⟨[], false, none, true⟩ =
      (none, ⟨[], false, none, true⟩) := next_end [] false true rfl
  have hmv : move_to_next_arg ⟨[], false, none, true⟩ =
      ⟨[], false, none, false⟩ := by
    simp only [move_to_next_arg, drainArg_none hstep]
    rfl
  have hp : parserNext ⟨[], false, none, true⟩ =
      (none, ⟨[], false, none, false⟩) := by
    simp [parserNext, hstep, hmv, wpeek]
  have hnil : wpeek (ParseArgs.mk [] false none true).cursor = none := rfl
  rw [tokenUnits, tokensFrom_none hp, argsFrom_nil hnil]
  simp [splitOnZero]

/-- Number of `NextArg` markers in a token list. -/
def countNextArg (l : List Token) : Nat :=
  l.countP (fun t => decide (t = Token.NextArg))

/-- Whether any code-unit token occurs in a token list. -/
def hasUnit (l : List Token) : Bool :=
  l.any (fun t => match t with | .Unit _ => true | .NextArg => false)

theorem countNextArg_map_unit (l : List Nat) :
    countNextArg (l.map Token.Unit) = 0 := by
  induction l with
  | nil => rfl
  | cons u t ih =>
    simp only [List.map_cons, countNextArg, List.countP_cons] at ih ⊢
    simp [ih]

theorem countNextArg_append (a b : List Token) :
    countNextArg (a ++ b) = countNextArg a + countNextArg b :=
  List.countP_append ..

theorem countNextArg_cons_next (l : List Token) :
    countNextArg (Token.NextArg :: l) = countNextArg l + 1 := by
  simp [countNextArg, List.countP_cons]

theorem argsFrom_length :
    ∀ (n : Nat) (s : ParseArgs), pMeasure s ≤ n →
    s.escape_iter = none → s.quote_mode = false →
    (∃ u, wpeek s.cursor = some u) →
    (argsFrom s).length = countNextArg (tokensFrom s) + 1 := by
  intro n
  induction n with
  | zero =>
    rintro s hle hesc hqm ⟨u, hpk⟩
    have hlen : s.cursor.length = 0 := by
      simp only [pMeasure] at hle
      omega
    rw [List.length_eq_zero.mp hlen] at hpk
    simp [wpeek] at hpk
  | succ n ihn =>
    rintro s hle hesc hqm ⟨u, hpk⟩
    obtain ⟨cur, qm, esc, a0⟩ := s
    dsimp only at hesc hqm hpk
    subst hesc hqm
    have hpk' : wpeek (ParseArgs.mk cur false none a0).cursor = some u := hpk
    rw [argsFrom_cons hpk', tokensFrom_structure]
    by_cases hpk2 :
      wpeek (move_to_next_arg ⟨cur, false, none, a0⟩).cursor = none
    · rw [if_pos hpk2, argsFrom_nil hpk2, List.append_nil,
        countNextArg_map_unit]
      rfl
    · rw [if_neg hpk2]
      obtain ⟨u2, hu2⟩ := Option.ne_none_iff_exists'.mp hpk2
      have hmeas := move_measure_lt hpk'
      have hrec := ihn (move_to_next_arg ⟨cur, false, none, a0⟩)
        (by simp only [pMeasure] at hle hmeas ⊢; omega)
        (move_escape _) (move_qm hu2) ⟨u2, hu2⟩
      rw [List.length_cons, hrec, countNextArg_append,
        countNextArg_map_unit, countNextArg_cons_next]
      omega

/-- C6 (amended): the number of arguments equals the number of `NextArg`
tokens, plus one when the buffer holds at least one unit before the
terminator (and plus zero for the empty buffer).  In particular, for a
nonempty buffer every marker sits between two arguments: there is exactly
one fewer marker than arguments. -/
theorem claim_C6 (buf : List Nat) :
    (argsFrom ⟨buf, false, none, true⟩).length =
      countNextArg (tokensFrom ⟨buf, false, none, true⟩) +
        (match wpeek buf with | none => 0 | some _ => 1) := by
  rcases hpk : wpeek buf with - | u
  · have hnil : wpeek (ParseArgs.mk buf false none true).cursor = none := hpk
    rw [argsFrom_nil hnil]
    have hstep : ParseArgs.next ⟨buf, false, none, true⟩ =
        (none, ⟨buf, false, none, true⟩) := next_end buf false true hpk
    have hmv : (move_to_next_arg ⟨buf, false, none, true⟩).cursor = buf := by
      show skip_whitespace (drainArg _).cursor = buf
      rw [drainArg_none hstep]
      exact skip_whitespace_of_end hpk
    have hp : parserNext ⟨buf, false, none, true⟩ =
        (none, move_to_next_arg ⟨buf, false, none, true⟩) := by
      simp [parserNext, hstep, hmv, hpk]
    rw [tokensFrom_none hp]
    rfl
  · have h1 := argsFrom_length (pMeasure ⟨buf, false, none, true⟩) _ le_rfl
      rfl rfl ⟨u, hpk⟩
    rw [h1]

/-- C6 (counterexample to the claim as stated): on the one-space input the
argument iterator yields one (empty) argument while the token stream is
empty, refuting the count formula based on emitted unit tokens; and on the
input `a "` the token stream ends with a `NextArg` marker (the final,
empty argument follows it), refuting the trailing-separator reading. -/
theorem claim_C6_cex :
    ((argsFrom ⟨[32], false, none, true⟩).length ≠
      countNextArg (tokensFrom ⟨[32], false, none, true⟩) +
        (if hasUnit (tokensFrom ⟨[32], false, none, true⟩) then 1 else 0)) ∧
    (tokensFrom ⟨[97, 32, 34], false, none, true⟩).getLast? =
      some Token.NextArg := by
  constructor
  · have hstep : ParseArgs.next ⟨[32], false, none, true⟩ =
        (none, ⟨[32], false, none, true⟩) := next_ws [] true (Or.inl rfl)
    have hmv : move_to_next_arg ⟨[32], false, none, true⟩ =
        ⟨[], false, none, false⟩ := by
      simp only [move_to_next_arg, drainArg_none hstep]
      rfl
    have hp0 : parserNext ⟨[32], false, none, true⟩ =
        (none, ⟨[], false, none, false⟩) := by
      simp [parserNext, hstep, hmv, wpeek]
    have hpk32 : wpeek (ParseArgs.mk [32] false none true).cursor =
        some 32 := rfl
    have hnil : wpeek (ParseArgs.mk [] false none false).cursor = none := rfl
    rw [tokensFrom_none hp0, argsFrom_cons hpk32, hmv, argsFrom_nil hnil]
    decide
  · have h1 : ParseArgs.next ⟨[97, 32, 34], false, none, true⟩ =
        (some 97, ⟨[32, 34], false, none, true⟩) :=
      next_other [32, 34] false true (by norm_num)
        (by norm_num [SPACE, TAB]) (by simp) (by norm_num [QUOTE])
    have hp1 : parserNext ⟨[97, 32, 34], false, none, true⟩ =
        (some (.Unit 97), ⟨[32, 34], false, none, true⟩) := by
      simp [parserNext, h1]
    have h2 : ParseArgs.next ⟨[32, 34], false, none, true⟩ =
        (none, ⟨[32, 34], false, none, true⟩) := next_ws [34] true (Or.inl rfl)
    have hmv2 : move_to_next_arg ⟨[32, 34], false, none, true⟩ =
        ⟨[34], false, none, false⟩ := by
      simp only [move_to_next_arg, drainArg_none h2]
      rfl
    have hp2 : parserNext ⟨[32, 34], false, none, true⟩ =
        (some .NextArg, ⟨[34], false, none, false⟩) := by
      simp [parserNext, h2, hmv2, wpeek]
    have h3 : ParseArgs.next ⟨[34], false, none, false⟩ =
        (none, ⟨[], true, none, false⟩) := by
      have ht := next_quote_toggle [] false false
        (by simp : ¬(false = false ∧ false = true ∧ wpeek [] = some QUOTE))
      have h3b : ParseArgs.next ⟨([] : List Nat), !false, none, false⟩ =
          (none, ⟨[], !false, none, false⟩) := next_end [] (!false) false rfl
      exact ht.trans h3b
    have h4 : ParseArgs.next ⟨([] : List Nat), true, none, false⟩ =
        (none, ⟨[], true, none, false⟩) := next_end [] true false rfl
    have hmv4 : move_to_next_arg ⟨([] : List Nat), true, none, false⟩ =
        ⟨[], true, none, false⟩ := by
      simp only [move_to_next_arg, drainArg_none h4]
      rfl
    have hp3 : parserNext ⟨[34], false, none, false⟩ =
        (none, ⟨[], true, none, false⟩) := by
      simp [parserNext, h3, hmv4, wpeek]
    rw [tokensFrom_some hp1, tokensFrom_some hp2, tokensFrom_none hp3]
    rfl

/-- Whitespace in the separator sense of the parser: SPACE or TAB. -/
def isWS (u : Nat) : Bool := decide (u = SPACE ∨ u = TAB)

theorem length_dropWhile_le (p : Nat → Bool) (l : List Nat) :
    (l.dropWhile p).length ≤ l.length := by
  induction l with
  | nil => simp
  | cons a t ih =>
    rw [List.dropWhile_cons]
    split
    · exact le_trans ih (by simp)
    · simp

theorem mem_dropWhile (p : Nat → Bool) (l : List Nat) :
    ∀ v ∈ l.dropWhile p, v ∈ l := by
  induction l with
  | nil => simp
  | cons a t ih =>
    rw [List.dropWhile_cons]
    split
    · intro v hv
      exact List.mem_cons_of_mem _ (ih v hv)
    · intro v hv
      exact hv

theorem dropWhile_shape (p : Nat → Bool) (l : List Nat) :
    l.dropWhile p = [] ∨
      ∃ u t, l.dropWhile p = u :: t ∧ p u = false := by
  induction l with
  | nil => exact Or.inl rfl
  | cons a t ih =>
    rw [List.dropWhile_cons]
    by_cases h : p a = true
    · rw [if_pos h]
      exact ih
    · rw [if_neg h]
      exact Or.inr ⟨a, t, rfl, Bool.not_eq_true _ ▸ h⟩

/-- Modelled from the spec side of C7: the naive split of the input on runs
of SPACE and TAB — leading whitespace opens an empty zeroth field, inner
runs separate fields, trailing whitespace adds no extra field. -/
def naiveSplit (l : List Nat) : List (List Nat) :=
  if l = [] then [] else
    l.takeWhile (fun u => !isWS u) ::
      (if l.dropWhile (fun u => !isWS u) = [] then []
       else naiveSplit ((l.dropWhile (fun u => !isWS u)).dropWhile isWS))
termination_by l.length
decreasing_by
  rename_i hl h2
  rcases dropWhile_shape (fun u => !isWS u) l with h3 | ⟨u, t, h3, h4⟩
  · exact absurd h3 h2
  · rw [h3, List.dropWhile_cons, if_pos (by simpa using h4)]
    have h5 := length_dropWhile_le isWS t
    have h6 := length_dropWhile_le (fun u => !isWS u) l
    rw [h3] at h6
    simp only [List.length_cons] at h6
    omega

theorem unitsFrom_plain (buf : List Nat) (a0 : Bool)
    (h : ∀ u ∈ buf, u ≠ 0 ∧ u ≠ SLASH ∧ u ≠ QUOTE) :
    unitsFrom ⟨buf, false, none, a0⟩ =
      buf.takeWhile (fun u => !isWS u) := by
  induction buf with
  | nil => rw [unitsFrom_nil]; rfl
  | cons u t ih =>
    obtain ⟨h0, hs, hq⟩ := h u (List.mem_cons_self ..)
    have ht : ∀ v ∈ t, v ≠ 0 ∧ v ≠ SLASH ∧ v ≠ QUOTE :=
      fun v hv => h v (List.mem_cons_of_mem _ hv)
    by_cases hws : isWS u = true
    · have hws2 : u = SPACE ∨ u = TAB := by simpa [isWS] using hws
      rw [unitsFrom_ws t a0 hws2, List.takeWhile_cons]
      simp [hws]
    · have hws2 : ¬(u = SPACE ∨ u = TAB) := by simpa [isWS] using hws
      rw [unitsFrom_other t false a0 h0 (by simp [hws2]) (by simp [hs]) hq,
        ih ht, List.takeWhile_cons]
      simp [hws]

theorem drainArg_plain (buf : List Nat) (a0 : Bool)
    (h : ∀ u ∈ buf, u ≠ 0 ∧ u ≠ SLASH ∧ u ≠ QUOTE) :
    drainArg ⟨buf, false, none, a0⟩ =
      ⟨buf.dropWhile (fun u => !isWS u), false, none, a0⟩ := by
  induction buf with
  | nil => rw [drainArg_none (next_end [] false a0 rfl)]; rfl
  | cons u t ih =>
    obtain ⟨h0, hs, hq⟩ := h u (List.mem_cons_self ..)
    have ht : ∀ v ∈ t, v ≠ 0 ∧ v ≠ SLASH ∧ v ≠ QUOTE :=
      fun v hv => h v (List.mem_cons_of_mem _ hv)
    by_cases hws : isWS u = true
    · have hws2 : u = SPACE ∨ u = TAB := by simpa [isWS] using hws
      rw [drainArg_none (next_ws t a0 hws2), List.dropWhile_cons]
      simp [hws]
    · have hws2 : ¬(u = SPACE ∨ u = TAB) := by simpa [isWS] using hws
      rw [drainArg_some (next_other t false a0 h0 (by simp [hws2])
        (by simp [hs]) hq), ih ht, List.dropWhile_cons]
      simp [hws]

theorem skip_whitespace_eq (l : List Nat) :
    skip_whitespace l = l.dropWhile isWS := by
  induction l with
  | nil => rfl
  | cons u t ih =>
    simp only [skip_whitespace, List.dropWhile_cons]
    by_cases h : u = SPACE ∨ u = TAB
    · simp [h, isWS, ih]
    · simp [h, isWS]

theorem args_plain :
    ∀ (n : Nat) (buf : List Nat), buf.length ≤ n →
    (∀ u ∈ buf, u ≠ 0 ∧ u ≠ SLASH ∧ u ≠ QUOTE) → ∀ a0 : Bool,
    (argsFrom ⟨buf, false, none, a0⟩).map Argument.utf16_units =
      naiveSplit buf := by
  intro n
  induction n with
  | zero =>
    intro buf hle h a0
    have hb : buf = [] := List.length_eq_zero.mp (by omega)
    subst hb
    have hnil : wpeek (ParseArgs.mk [] false none a0).cursor = none := rfl
    rw [argsFrom_nil hnil, naiveSplit]
    simp
  | succ n ihn =>
    intro buf hle h a0
    cases buf with
    | nil =>
      have hnil : wpeek (ParseArgs.mk [] false none a0).cursor = none := rfl
      rw [argsFrom_nil hnil, naiveSplit]
      simp
    | cons u t =>
      have h0 : u ≠ 0 := (h u (List.mem_cons_self ..)).1
      have hpk : wpeek (ParseArgs.mk (u :: t) false none a0).cursor =
          some u := by simp [wpeek, h0]
      rw [argsFrom_cons hpk, List.map_cons]
      have hunits : Argument.utf16_units ⟨u :: t, a0⟩ =
          (u :: t).takeWhile (fun v => !isWS v) := unitsFrom_plain (u :: t) a0 h
      have hmv : move_to_next_arg (ParseArgs.mk (u :: t) false none a0) =
          ⟨((u :: t).dropWhile (fun v => !isWS v)).dropWhile isWS,
            false, none, false⟩ := by
        simp only [move_to_next_arg, drainArg_plain (u :: t) a0 h,
          skip_whitespace_eq]
      rw [hunits, hmv]
      rw [naiveSplit]
      rw [if_neg (by simp : ¬(u :: t) = [])]
      rcases dropWhile_shape (fun v => !isWS v) (u :: t) with h3 | ⟨v, t2, h3, h4⟩
      · rw [h3, if_pos rfl]
        have hnil : wpeek (ParseArgs.mk ([].dropWhile isWS) false none
            false).cursor = none := rfl
        rw [argsFrom_nil hnil]
        rfl
      · rw [if_neg (by rw [h3]; simp)]
        have hlen : (((u :: t).dropWhile (fun v => !isWS v)).dropWhile
            isWS).length ≤ n := by
          have h5 := length_dropWhile_le (fun v => !isWS v) (u :: t)
          rw [h3] at h5
          rw [h3, List.dropWhile_cons, if_pos (by simpa using h4)]
          have h6 := length_dropWhile_le isWS t2
          simp only [List.length_cons] at h5 hle
          omega
        have hmem : ∀ v2 ∈ ((u :: t).dropWhile (fun v => !isWS v)).dropWhile
            isWS, v2 ≠ 0 ∧ v2 ≠ SLASH ∧ v2 ≠ QUOTE := fun v2 hv2 =>
          h v2 (mem_dropWhile _ _ v2 (mem_dropWhile _ _ v2 hv2))
        rw [ihn _ hlen hmem false]

/-- C7: on an input free of backslashes, quotes and surrogates (and of
embedded NULs), the parsed argument bodies are exactly the naive
whitespace split of the input. -/
theorem claim_C7 (buf : List Nat)
    (h : ∀ u ∈ buf, u ≠ 0 ∧ u ≠ SLASH ∧ u ≠ QUOTE ∧
      ¬(55296 ≤ u ∧ u ≤ 57343)) :
    (argsFrom ⟨buf, false, none, true⟩).map Argument.utf16_units =
      naiveSplit buf :=
  args_plain buf.length buf le_rfl
    (fun u hu => ⟨(h u hu).1, (h u hu).2.1, (h u hu).2.2.1⟩) true

theorem claim_C7_witness :
    (∀ u ∈ [97, 32, 98], u ≠ 0 ∧ u ≠ SLASH ∧ u ≠ QUOTE ∧
      ¬(55296 ≤ u ∧ u ≤ 57343)) ∧
    (argsFrom ⟨[97, 32, 98], false, none, true⟩).map Argument.utf16_units =
      naiveSplit [97, 32, 98] :=
  ⟨by decide, claim_C7 [97, 32, 98] (by decide)⟩

/-- The units of the buffer up to (excluding) the terminating zero. -/
def truncZ (l : List Nat) : List Nat := l.takeWhile (fun u => !(u == 0))

/-- Count of units up to the terminating zero. -/
def unitsToZero (l : List Nat) : Nat := (truncZ l).length

/-- The loop of `WideIter::max_len` (lines 389-395): `len` is a `u16` in
the source, so the increment wraps modulo 2^16. -/
def max_lenGo (len : Nat) : List Nat → Nat
  | [] => len
  | u :: t => if u = 0 then len else max_lenGo ((len + 1) % 65536) t

/-- `WideIter::max_len` (lines 389-395). -/
def max_len (l : List Nat) : Nat := max_lenGo 0 l

/-- `<Parser as Iterator>::size_hint` (lines 134-136). -/
def size_hint (s : ParseArgs) : Nat × Option Nat :=
  (0, some (max_len s.cursor))

theorem truncZ_cons_zero (t : List Nat) : truncZ (0 :: t) = [] := by
  simp [truncZ]

theorem truncZ_cons {u : Nat} (t : List Nat) (h : u ≠ 0) :
    truncZ (u :: t) = u :: truncZ t := by
  simp [truncZ, h]

theorem max_lenGo_eq (l : List Nat) : ∀ len, len < 65536 →
    max_lenGo len l = (len + unitsToZero l) % 65536 := by
  induction l with
  | nil =>
    intro len h
    simp [max_lenGo, unitsToZero, truncZ, Nat.mod_eq_of_lt h]
  | cons u t ih =>
    intro len h
    by_cases h0 : u = 0
    · subst h0
      simp only [max_lenGo, if_pos rfl, unitsToZero, truncZ_cons_zero,
        List.length_nil, Nat.add_zero]
      exact (Nat.mod_eq_of_lt h).symm
    · rw [show max_lenGo len (u :: t) = max_lenGo ((len + 1) % 65536) t
        from by simp [max_lenGo, h0]]
      rw [ih _ (Nat.mod_lt _ (by omega))]
      rw [show unitsToZero (u :: t) = unitsToZero t + 1
        from by simp [unitsToZero, truncZ_cons t h0]]
      omega

theorem unitsToZero_replicate (n : Nat) :
    unitsToZero (List.replicate n 1) = n := by
  induction n with
  | zero => rfl
  | succ n ih =>
    rw [show unitsToZero (List.replicate (n + 1) 1) =
        unitsToZero (List.replicate n 1) + 1 from by
      simp [unitsToZero, List.replicate_succ, truncZ_cons], ih]

/-- C9 (amended): the size-hint upper bound is the count of units up to the
terminating zero reduced modulo 2^16 (the `u16` length counter wraps); it
equals that count exactly whenever the count is below 2^16. -/
theorem claim_C9 (s : ParseArgs) :
    size_hint s = (0, some (unitsToZero s.cursor % 65536)) ∧
    (unitsToZero s.cursor < 65536 →
      size_hint s = (0, some (unitsToZero s.cursor))) := by
  have h1 : max_len s.cursor = unitsToZero s.cursor % 65536 := by
    rw [max_len, max_lenGo_eq s.cursor 0 (by omega), Nat.zero_add]
  constructor
  · rw [size_hint, h1]
  · intro h2
    rw [size_hint, h1, Nat.mod_eq_of_lt h2]

theorem claim_C9_witness :
    unitsToZero (ParseArgs.mk [97] false none false).cursor < 65536 ∧
      size_hint ⟨[97], false, none, false⟩ =
        (0, some (unitsToZero (ParseArgs.mk [97] false none false).cursor)) :=
  ⟨by decide, (claim_C9 ⟨[97], false, none, false⟩).2 (by decide)⟩

/-- C9 (counterexample to the claim as stated): on a buffer of 2^16 units
the u16 length counter wraps to 0, so the upper bound is not the remaining
unit count. -/
theorem claim_C9_cex :
    size_hint ⟨List.replicate 65536 1, false, none, false⟩ ≠
      (0, some (unitsToZero (List.replicate 65536 1))) := by
  have h1 : max_len (List.replicate 65536 1) =
      unitsToZero (List.replicate 65536 1) % 65536 := by
    rw [max_len, max_lenGo_eq _ 0 (by omega), Nat.zero_add]
  have h2 := unitsToZero_replicate 65536
  intro h
  have hc := congrArg (fun p : Nat × Option Nat => p.2) h
  simp only [size_hint] at hc
  injection hc with hc
  rw [h1, h2] at hc
  omega

/-- A state with the cursor truncated at the terminating zero. -/
def truncState (s : ParseArgs) : ParseArgs :=
  ⟨truncZ s.cursor, s.quote_mode, s.escape_iter, s.is_arg0⟩

theorem wpeek_truncZ (l : List Nat) : wpeek (truncZ l) = wpeek l := by
  cases l with
  | nil => rfl
  | cons u t =>
    by_cases h0 : u = 0
    · subst h0
      rw [truncZ_cons_zero]
      simp [wpeek]
    · rw [truncZ_cons t h0]
      simp [wpeek, h0]

theorem escNewGo_trunc (l : List Nat) : ∀ c,
    (escNewGo c (truncZ l)).1 = (escNewGo c l).1 ∧
    (escNewGo c (truncZ l)).2 = truncZ (escNewGo c l).2 := by
  induction l with
  | nil => intro c; exact ⟨rfl, rfl⟩
  | cons u t ih =>
    intro c
    by_cases h0 : u = 0
    · subst h0
      rw [truncZ_cons_zero]
      simp [escNewGo, truncZ_cons_zero]
    · rw [truncZ_cons t h0]
      by_cases hs : u = SLASH
      · subst hs
        rw [escNewGo_slash, escNewGo_slash]
        exact ih _
      · by_cases hq : u = QUOTE
        · subst hq
          rw [escNewGo_quote, escNewGo_quote]
          by_cases hodd : c % 2 = 1
          · simp [hodd]
          · simp [hodd, truncZ_cons t h0]
        · simp [escNewGo, h0, hs, hq, truncZ_cons t h0]

theorem next_trunc (s : ParseArgs) :
    (ParseArgs.next (truncState s)).1 = (ParseArgs.next s).1 ∧
    (ParseArgs.next (truncState s)).2 = truncState (ParseArgs.next s).2 := by
  induction s using ParseArgs.next.induct with
  | case1 cur qm e a0 w2 e2 he =>
    rw [show truncState ⟨cur, qm, some e, a0⟩ = ⟨truncZ cur, qm, some e, a0⟩
      from rfl, next_escape_emit (truncZ cur) qm a0 he,
      next_escape_emit cur qm a0 he]
    exact ⟨rfl, rfl⟩
  | case2 cur qm e a0 e2 he ih =>
    rw [show truncState ⟨cur, qm, some e, a0⟩ = ⟨truncZ cur, qm, some e, a0⟩
      from rfl, next_escape_done (truncZ cur) qm a0 he,
      next_escape_done cur qm a0 he]
    exact ih
  | case3 qm a0 =>
    have h1 : ParseArgs.next ⟨([] : List Nat), qm, none, a0⟩ =
        (none, ⟨[], qm, none, a0⟩) := next_end [] qm a0 rfl
    rw [show truncState ⟨([] : List Nat), qm, none, a0⟩ =
      ⟨[], qm, none, a0⟩ from rfl, h1]
    exact ⟨rfl, rfl⟩
  | case4 rest qm a0 =>
    rw [show truncState ⟨0 :: rest, qm, none, a0⟩ = ⟨[], qm, none, a0⟩
      from by simp [truncState, truncZ_cons_zero],
      next_end [] qm a0 rfl, next_end (0 :: rest) qm a0 (by simp [wpeek])]
    exact ⟨rfl, by simp [truncState, truncZ_cons_zero]⟩
  | case5 u rest qm a0 h0 hws =>
    obtain ⟨hu, hqm⟩ := hws
    subst hqm
    rw [show truncState ⟨u :: rest, false, none, a0⟩ =
        ⟨u :: truncZ rest, false, none, a0⟩
      from by simp [truncState, truncZ_cons rest h0],
      next_ws (truncZ rest) a0 hu, next_ws rest a0 hu]
    exact ⟨rfl, by simp [truncState, truncZ_cons rest h0]⟩
  | case6 u rest qm a0 h0 hws hsl ih =>
    obtain ⟨hu, ha⟩ := hsl
    subst hu ha
    rw [show truncState ⟨SLASH :: rest, qm, none, false⟩ =
        ⟨SLASH :: truncZ rest, qm, none, false⟩
      from by simp [truncState, truncZ_cons rest h0],
      next_slash (truncZ rest) qm, next_slash rest qm]
    obtain ⟨he1, he2⟩ := escNewGo_trunc rest 1
    rw [show escNew (truncZ rest) = escNewGo 1 (truncZ rest) from rfl,
      show escNew rest = escNewGo 1 rest from rfl, he1, he2]
    exact ih
  | case7 rest qm a0 hp h0 hws hsl =>
    obtain ⟨ha, hq, hpk⟩ := hp
    subst ha hq
    have hq0 : QUOTE ≠ 0 := by norm_num [QUOTE]
    have hpk2 : wpeek (truncZ rest) = some QUOTE := by
      rw [wpeek_truncZ]
      exact hpk
    rw [show truncState ⟨QUOTE :: rest, true, none, false⟩ =
        ⟨QUOTE :: truncZ rest, true, none, false⟩
      from by simp [truncState, truncZ_cons rest hq0],
      next_quote_pair (truncZ rest) hpk2, next_quote_pair rest hpk]
    refine ⟨rfl, ?_⟩
    obtain ⟨hrest, -⟩ := wpeek_eq_some hpk
    have : truncZ rest = QUOTE :: truncZ rest.tail := by
      conv_lhs => rw [hrest]
      exact truncZ_cons rest.tail hq0
    simp [truncState, this]
  | case8 rest qm a0 hp h0 hws hsl ih =>
    have hq0 : QUOTE ≠ 0 := by norm_num [QUOTE]
    have hp2 : ¬(a0 = false ∧ qm = true ∧ wpeek (truncZ rest) = some QUOTE) := by
      rw [wpeek_truncZ]
      exact hp
    rw [show truncState ⟨QUOTE :: rest, qm, none, a0⟩ =
        ⟨QUOTE :: truncZ rest, qm, none, a0⟩
      from by simp [truncState, truncZ_cons rest hq0],
      next_quote_toggle (truncZ rest) qm a0 hp2, next_quote_toggle rest qm a0 hp]
    exact ih
  | case9 u rest qm a0 h0 hws hsl hq =>
    rw [show truncState ⟨u :: rest, qm, none, a0⟩ =
        ⟨u :: truncZ rest, qm, none, a0⟩
      from by simp [truncState, truncZ_cons rest h0],
      next_other (truncZ rest) qm a0 h0 hws hsl hq,
      next_other rest qm a0 h0 hws hsl hq]
    exact ⟨rfl, by simp [truncState, truncZ_cons rest h0]⟩

theorem next_trunc_some {s s' : ParseArgs} {w : Nat}
    (h : ParseArgs.next s = (some w, s')) :
    ParseArgs.next (truncState s) = (some w, truncState s') := by
  obtain ⟨h1, h2⟩ := next_trunc s
  rw [h] at h1 h2
  exact Prod.ext h1 h2

theorem next_trunc_none {s s' : ParseArgs}
    (h : ParseArgs.next s = (none, s')) :
    ParseArgs.next (truncState s) = (none, truncState s') := by
  obtain ⟨h1, h2⟩ := next_trunc s
  rw [h] at h1 h2
  exact Prod.ext h1 h2

theorem unitsFrom_trunc (s : ParseArgs) :
    unitsFrom (truncState s) = unitsFrom s := by
  induction s using unitsFrom.induct with
  | case1 s w s' h ih =>
    rw [unitsFrom_some (next_trunc_some h), unitsFrom_some h, ih]
  | case2 s s' h =>
    rw [unitsFrom_none (next_trunc_none h), unitsFrom_none h]

theorem drainArg_trunc (s : ParseArgs) :
    drainArg (truncState s) = truncState (drainArg s) := by
  induction s using drainArg.induct with
  | case1 s w s' h ih =>
    rw [drainArg_some (next_trunc_some h), drainArg_some h, ih]
  | case2 s s' h =>
    rw [drainArg_none (next_trunc_none h), drainArg_none h]

theorem skip_whitespace_trunc (l : List Nat) :
    skip_whitespace (truncZ l) = truncZ (skip_whitespace l) := by
  induction l with
  | nil => rfl
  | cons u t ih =>
    by_cases h0 : u = 0
    · subst h0
      rw [truncZ_cons_zero]
      have : skip_whitespace ((0 : Nat) :: t) = 0 :: t := by
        simp [skip_whitespace, SPACE, TAB]
      rw [this, truncZ_cons_zero]
      rfl
    · rw [truncZ_cons t h0]
      by_cases hws : u = SPACE ∨ u = TAB
      · rw [skip_whitespace_ws (truncZ t) hws, skip_whitespace_ws t hws, ih]
      · have h1 : skip_whitespace (u :: truncZ t) = u :: truncZ t := by
          simp [skip_whitespace, hws]
        have h2 : skip_whitespace (u :: t) = u :: t := by
          simp [skip_whitespace, hws]
        rw [h1, h2, truncZ_cons t h0]

theorem move_trunc (s : ParseArgs) :
    move_to_next_arg (truncState s) = truncState (move_to_next_arg s) := by
  simp only [move_to_next_arg, drainArg_trunc]
  simp only [truncState, skip_whitespace_trunc]

theorem parserNext_trunc (s : ParseArgs) :
    (parserNext (truncState s)).1 = (parserNext s).1 ∧
    (parserNext (truncState s)).2 = truncState (parserNext s).2 := by
  rcases hn : ParseArgs.next s with ⟨r, s1⟩
  cases r with
  | some w =>
    rw [show parserNext s = (some (.Unit w), s1) from by simp [parserNext, hn]]
    rw [show parserNext (truncState s) = (some (.Unit w), truncState s1) from
      by simp [parserNext, next_trunc_some hn]]
    exact ⟨rfl, rfl⟩
  | none =>
    have hc : wpeek (move_to_next_arg (truncState s1)).cursor =
        wpeek (move_to_next_arg s1).cursor := by
      rw [move_trunc]
      exact wpeek_truncZ _
    by_cases hpk : wpeek (move_to_next_arg s1).cursor = none
    · rw [show parserNext s = (none, move_to_next_arg s1) from
        by simp [parserNext, hn, hpk]]
      rw [show parserNext (truncState s) = (none, move_to_next_arg
          (truncState s1)) from by
        simp [parserNext, next_trunc_none hn, hc, hpk]]
      exact ⟨rfl, move_trunc s1⟩
    · rw [show parserNext s = (some .NextArg, move_to_next_arg s1) from
        by simp [parserNext, hn, hpk]]
      rw [show parserNext (truncState s) = (some .NextArg, move_to_next_arg
          (truncState s1)) from by
        simp [parserNext, next_trunc_none hn, hc, hpk]]
      exact ⟨rfl, move_trunc s1⟩

theorem tokensFrom_trunc (s : ParseArgs) :
    tokensFrom (truncState s) = tokensFrom s := by
  induction s using tokensFrom.induct with
  | case1 s t s' h ih =>
    obtain ⟨h1, h2⟩ := parserNext_trunc s
    rw [h] at h1 h2
    have hq : parserNext (truncState s) = (some t, truncState s') :=
      Prod.ext h1 h2
    rw [tokensFrom_some hq, tokensFrom_some h, ih]
  | case2 s s' h =>
    obtain ⟨h1, h2⟩ := parserNext_trunc s
    rw [h] at h1 h2
    have hq : parserNext (truncState s) = (none, truncState s') :=
      Prod.ext h1 h2
    rw [tokensFrom_none hq, tokensFrom_none h]

theorem argsFrom_trunc (s : ParseArgs) :
    (argsFrom (truncState s)).map Argument.utf16_units =
      (argsFrom s).map Argument.utf16_units := by
  induction s using argsFrom.induct with
  | case1 s a s' h ih =>
    have hpk : ∃ u, wpeek s.cursor = some u := by
      by_cases hp : wpeek s.cursor = none
      · simp [argsNext, hp] at h
      · exact Option.ne_none_iff_exists'.mp hp
    obtain ⟨u, hu⟩ := hpk
    have hut : wpeek (truncState s).cursor = some u := by
      show wpeek (truncZ s.cursor) = some u
      rw [wpeek_truncZ]
      exact hu
    have hs' : s' = move_to_next_arg s := by
      simp [argsNext, hu] at h
      exact h.2.symm
    subst hs'
    rw [argsFrom_cons hu, argsFrom_cons hut, List.map_cons, List.map_cons,
      move_trunc, ih]
    have : Argument.utf16_units ⟨(truncState s).cursor, (truncState s).is_arg0⟩ =
        Argument.utf16_units ⟨s.cursor, s.is_arg0⟩ := by
      show unitsFrom ⟨truncZ s.cursor, false, none, s.is_arg0⟩ =
        unitsFrom ⟨s.cursor, false, none, s.is_arg0⟩
      exact unitsFrom_trunc ⟨s.cursor, false, none, s.is_arg0⟩
    rw [this]
  | case2 s s' h =>
    have hp : wpeek s.cursor = none := by
      by_cases hp : wpeek s.cursor = none
      · exact hp
      · simp [argsNext, hp] at h
    have hpt : wpeek (truncState s).cursor = none := by
      show wpeek (truncZ s.cursor) = none
      rw [wpeek_truncZ]
      exact hp
    rw [argsFrom_nil hp, argsFrom_nil hpt]

theorem truncZ_append_zero (buf junk : List Nat) (h : ∀ u ∈ buf, u ≠ 0) :
    truncZ (buf ++ 0 :: junk) = buf := by
  induction buf with
  | nil => exact truncZ_cons_zero junk
  | cons u t ih =>
    rw [List.cons_append,
      truncZ_cons (t ++ 0 :: junk) (h u (List.mem_cons_self ..)),
      ih (fun v hv => h v (List.mem_cons_of_mem _ hv))]

/-- C4: the parser is total by construction (every operation here is a
terminating function returning a finite list), and it never reads past the
terminating zero: units, tokens and argument bodies computed from a buffer
with arbitrary junk behind the first zero equal those computed from the
units before the zero alone. -/
theorem claim_C4 (buf junk : List Nat) (qm a0 : Bool)
    (h : ∀ u ∈ buf, u ≠ 0) :
    tokensFrom ⟨buf ++ 0 :: junk, qm, none, a0⟩ =
      tokensFrom ⟨buf, qm, none, a0⟩ ∧
    unitsFrom ⟨buf ++ 0 :: junk, qm, none, a0⟩ =
      unitsFrom ⟨buf, qm, none, a0⟩ ∧
    (argsFrom ⟨buf ++ 0 :: junk, qm, none, a0⟩).map Argument.utf16_units =
      (argsFrom ⟨buf, qm, none, a0⟩).map Argument.utf16_units := by
  have e1 : truncState ⟨buf ++ 0 :: junk, qm, none, a0⟩ =
      ⟨buf, qm, none, a0⟩ := by
    simp [truncState, truncZ_append_zero buf junk h]
  refine ⟨?_, ?_, ?_⟩
  · rw [← e1]
    exact (tokensFrom_trunc _).symm
  · rw [← e1]
    exact (unitsFrom_trunc _).symm
  · rw [← e1]
    exact (argsFrom_trunc _).symm

theorem claim_C4_witness :
    (∀ u ∈ [97], u ≠ 0) ∧
      (tokensFrom ⟨[97] ++ 0 :: [34], false, none, true⟩ =
        tokensFrom ⟨[97], false, none, true⟩ ∧
      unitsFrom ⟨[97] ++ 0 :: [34], false, none, true⟩ =
        unitsFrom ⟨[97], false, none, true⟩ ∧
      (argsFrom ⟨[97] ++ 0 :: [34], false, none, true⟩).map
          Argument.utf16_units =
        (argsFrom ⟨[97], false, none, true⟩).map Argument.utf16_units) :=
  ⟨by decide, claim_C4 [97] [34] false true (by decide)⟩

end Winarg
